import Mathlib

/-!
# Verification of `dcfuncs` configuration composition (`src/dcfuncs/configs.py`)

This file embeds the configuration-composition core of the `dcfuncs`
repository in Lean 4 and proves (or refutes) the specification claims about
it.

The embedded code is:

* `rupdate` / `rupdateGo` — the recursive dict merge (configs.py, lines
  64-72).  Python values decoded from YAML are modelled by the inductive
  type `Val` (null, int/str scalars, lists, dicts as insertion-ordered
  association lists).  Python raises exceptions on some inputs
  (e.g. `(5).copy()` is an `AttributeError`), so the embedding returns
  `Option Val`, with `none` modelling an uncaught exception.
* `finaldict` — the left fold of a combination through `rupdate`
  (configs.py, lines 73-79).
* `pyproduct` — `itertools.product` over the per-file document lists
  (last list varies fastest).
* `get_configsV` / `get_configs` — the body of `get_configs` from the
  point where the per-file document lists have been parsed (configs.py,
  lines 84-104), including the `verbose` printing (modelled as a trace of
  `PrintEvent`s) and the `types` check which calls `dutil.zz` (which
  raises `SystemExit`, modelled as `Except.error`).
* `pyWithSuffix` — `pathlib.PurePath.with_suffix`, used on line 81 to turn
  a config-file identifier into the opened path.
* `hrun` (heap model) — a second embedding of `rupdate`/`finaldict` over an
  explicit heap of Python objects, used for the claims about object
  identity (copying vs. aliasing).
-/

set_option maxHeartbeats 1000000

namespace DCF

/-- A Python value decoded from YAML: `None`, an int scalar, a str scalar,
a list, or a dict (modelled as an insertion-ordered association list, as
Python dicts preserve insertion order and have unique keys). -/
inductive Val where
  | vnull : Val
  | vint : Int → Val
  | vstr : String → Val
  | vlist : List Val → Val
  | vdict : List (String × Val) → Val
deriving Repr

/-- `isinstance(v, dict)`. -/
def Val.isDict : Val → Bool
  | .vdict _ => true
  | _ => false

/-- `d.get(k)` / `d[k]` on an association list: first binding wins
(Python dicts have unique keys, so this is the binding). -/
def lookup (es : List (String × Val)) (k : String) : Option Val :=
  match es with
  | [] => none
  | (k', v) :: rest => if k' = k then some v else lookup rest k

/-- `d.get(key, dflt)`. -/
def getD (es : List (String × Val)) (k : String) (dflt : Val) : Val :=
  (lookup es k).getD dflt

/-- `d[key] = v` on an insertion-ordered dict: an existing binding keeps its
position and is overwritten, a new key is appended at the end. -/
def setk (es : List (String × Val)) (k : String) (v : Val) : List (String × Val) :=
  match es with
  | [] => [(k, v)]
  | (k', v') :: rest => if k' = k then (k', v) :: rest else (k', v') :: setk rest k v

/-- Keys of a dict, in order. -/
def keys (es : List (String × Val)) : List String := es.map Prod.fst

mutual

/-- `rupdate(dict1, dict2)` (configs.py lines 64-72):

```
def rupdate(dict1,dict2):
    dict1c = dict1.copy()
    for key,val in dict2.items():
        if isinstance(val,dict):
            dict1c[key] = rupdate(dict1c.get(key,{}),val)
        else:
            dict1c[key] = val
    return dict1c
```

`dict2.items()` requires `dict2` to be a dict (otherwise `AttributeError`,
modelled as `none`).  `dict1.copy()` exists for dicts and lists but not for
scalars/None (`AttributeError`, `none`).  When `dict1` is a list the copy
succeeds, but the first loop iteration fails (`list.get` does not exist and
`list[str]` is a `TypeError`), so only an empty `dict2` returns the list
copy. -/
def rupdate (dict1 dict2 : Val) : Option Val :=
  match dict2 with
  | Val.vdict es =>
    match dict1 with
    | Val.vdict d1 => (rupdateGo d1 es).map Val.vdict
    | Val.vlist xs =>
      match es with
      | [] => some (Val.vlist xs)
      | _ :: _ => none
    | _ => none
  | _ => none
termination_by sizeOf dict2
decreasing_by all_goals (simp_wf; try omega)

/-- The `for key,val in dict2.items()` loop of `rupdate`, acting on the
mutable copy `dict1c` (here the accumulator `acc`).  The inner match on
`v` is the `isinstance(val,dict)` test. -/
def rupdateGo (acc : List (String × Val)) (es : List (String × Val)) :
    Option (List (String × Val)) :=
  match es with
  | [] => some acc
  | (k, v) :: rest =>
    match v with
    | Val.vdict e2 =>
      match rupdate (getD acc k (Val.vdict [])) (Val.vdict e2) with
      | some sub => rupdateGo (setk acc k sub) rest
      | none => none
    | _ => rupdateGo (setk acc k v) rest
termination_by sizeOf es
decreasing_by all_goals (simp_wf; try omega)

end

/-! ## Basic lemmas about the dict operations -/

@[simp] theorem lookup_nil (k : String) : lookup [] k = none := rfl

@[simp] theorem keys_nil : keys [] = [] := rfl

@[simp] theorem keys_cons (k0 : String) (v0 : Val) (rest : List (String × Val)) :
    keys ((k0, v0) :: rest) = k0 :: keys rest := rfl

theorem keys_append (es ts : List (String × Val)) :
    keys (es ++ ts) = keys es ++ keys ts := by
  simp [keys]

theorem mem_keys_of_mem {es : List (String × Val)} {k : String} {v : Val}
    (h : (k, v) ∈ es) : k ∈ keys es :=
  List.mem_map_of_mem Prod.fst h

theorem lookup_setk_self (es : List (String × Val)) (k : String) (v : Val) :
    lookup (setk es k v) k = some v := by
  induction es with
  | nil => simp [setk, lookup]
  | cons kv rest ih =>
    obtain ⟨k', v'⟩ := kv
    by_cases h : k' = k <;> simp [setk, lookup, h, ih]

theorem lookup_setk_ne (es : List (String × Val)) {k k' : String} (v : Val)
    (h : k' ≠ k) : lookup (setk es k v) k' = lookup es k' := by
  induction es with
  | nil => simp [setk, lookup, Ne.symm h]
  | cons kv rest ih =>
    obtain ⟨k0, v0⟩ := kv
    by_cases h0 : k0 = k
    · subst h0
      simp [setk, lookup, Ne.symm h]
    · simp only [setk, if_neg h0]
      by_cases h1 : k0 = k' <;> simp [lookup, h1, ih]

theorem lookup_eq_none_of_not_mem {es : List (String × Val)} {k : String}
    (h : k ∉ keys es) : lookup es k = none := by
  induction es with
  | nil => rfl
  | cons kv rest ih =>
    obtain ⟨k0, v0⟩ := kv
    rw [keys_cons, List.mem_cons] at h
    push_neg at h
    simp [lookup, Ne.symm h.1, ih h.2]

theorem mem_keys_of_lookup {es : List (String × Val)} {k : String} {v : Val}
    (h : lookup es k = some v) : k ∈ keys es := by
  by_contra hk
  rw [lookup_eq_none_of_not_mem hk] at h
  exact Option.noConfusion h

theorem setk_of_not_mem {es : List (String × Val)} {k : String} (v : Val)
    (h : k ∉ keys es) : setk es k v = es ++ [(k, v)] := by
  induction es with
  | nil => simp [setk]
  | cons kv rest ih =>
    obtain ⟨k0, v0⟩ := kv
    rw [keys_cons, List.mem_cons] at h
    push_neg at h
    simp [setk, Ne.symm h.1, ih h.2]

theorem lookup_append (es ts : List (String × Val)) (k : String) :
    lookup (es ++ ts) k =
      match lookup es k with
      | some v => some v
      | none => lookup ts k := by
  induction es with
  | nil => simp [lookup]
  | cons kv rest ih =>
    obtain ⟨k0, v0⟩ := kv
    by_cases h : k0 = k <;> simp [lookup, h, ih]

theorem keys_setk_of_mem {es : List (String × Val)} {k : String} (v : Val)
    (h : k ∈ keys es) : keys (setk es k v) = keys es := by
  induction es with
  | nil => simp at h
  | cons kv rest ih =>
    obtain ⟨k0, v0⟩ := kv
    by_cases h0 : k0 = k
    · simp [setk, h0]
    · rw [keys_cons, List.mem_cons] at h
      rcases h with h | h
      · exact absurd h.symm h0
      · simp [setk, h0, ih h]

theorem lookup_of_mem_nodup {es : List (String × Val)} {k : String} {v : Val}
    (hnd : (keys es).Nodup) (h : (k, v) ∈ es) : lookup es k = some v := by
  induction es with
  | nil => simp at h
  | cons kv rest ih =>
    obtain ⟨k0, v0⟩ := kv
    rw [keys_cons, List.nodup_cons] at hnd
    rcases List.mem_cons.mp h with h | h
    · rw [Prod.mk.injEq] at h
      obtain ⟨rfl, rfl⟩ := h
      simp [lookup]
    · have hk : k0 ≠ k := by
        rintro rfl
        exact hnd.1 (mem_keys_of_mem h)
      simp [lookup, hk, ih hnd.2 h]

/-! ## Well-formed values

A value decoded from YAML is well-formed when every mapping reachable
through mappings has duplicate-free keys (Python dicts cannot have
duplicate keys).  `rupdate` never recurses into lists, so mappings that
sit inside sequence values are not constrained. -/

def wfVal : Val → Prop
  | Val.vdict es => (keys es).Nodup ∧ ∀ k v, (k, v) ∈ es → wfVal v
  | _ => True
termination_by v => sizeOf v
decreasing_by
  all_goals simp_wf
  rename_i h
  have := List.sizeOf_lt_of_mem h
  simp at this
  omega

theorem wfVal_dict {es : List (String × Val)} :
    wfVal (Val.vdict es) ↔ (keys es).Nodup ∧ ∀ k v, (k, v) ∈ es → wfVal v := by
  rw [wfVal]

/-- Introduction form of `wfVal` for dicts, convenient on concrete values. -/
theorem wfVal_dict_of (es : List (String × Val)) (h1 : (keys es).Nodup)
    (h2 : ∀ p ∈ es, wfVal p.2) : wfVal (Val.vdict es) := by
  rw [wfVal]
  exact ⟨h1, fun k v hv => h2 (k, v) hv⟩

/-! ## Merging into an empty dict copies the override

`rupdate({}, B)` (and more generally the update loop run over entries whose
keys are fresh for the accumulator) appends the override entries verbatim:
the loop rebuilds each nested dict of the override, and rebuilding a
well-formed dict is the identity at the level of values. -/

theorem rupdateGo_append_aux : ∀ (n : Nat) (es2 : List (String × Val)), sizeOf es2 ≤ n →
    (keys es2).Nodup → (∀ k v, (k, v) ∈ es2 → wfVal v) →
    ∀ acc : List (String × Val), (∀ k, k ∈ keys es2 → k ∉ keys acc) →
    rupdateGo acc es2 = some (acc ++ es2) := by
  intro n
  induction n with
  | zero => intro es2 hsz; cases es2 <;> simp at hsz
  | succ n ih =>
    intro es2 hsz hnd hwf acc hdisj
    cases es2 with
    | nil => simp [rupdateGo]
    | cons kv rest =>
      obtain ⟨k0, v0⟩ := kv
      have hk0acc : k0 ∉ keys acc := hdisj k0 (by simp)
      have hndc := List.nodup_cons.mp (by simpa using hnd)
      have hk0rest : k0 ∉ keys rest := hndc.1
      have hrest : ∀ k v, (k, v) ∈ rest → wfVal v :=
        fun k v h => hwf k v (List.mem_cons_of_mem _ h)
      have hszrest : sizeOf rest ≤ n := by simp at hsz; omega
      have hrec : rupdateGo (acc ++ [(k0, v0)]) rest =
          some ((acc ++ [(k0, v0)]) ++ rest) := by
        apply ih rest hszrest hndc.2 hrest
        intro k hk
        rw [keys_append, List.mem_append]
        push_neg
        refine ⟨hdisj k (by simp [hk]), ?_⟩
        simp only [keys_cons, keys_nil, List.mem_singleton]
        rintro rfl
        exact hk0rest hk
      have hsetk : setk acc k0 v0 = acc ++ [(k0, v0)] := setk_of_not_mem _ hk0acc
      cases v0 with
      | vdict e2 =>
        have hwf0 : wfVal (Val.vdict e2) := hwf k0 _ (by simp)
        rw [wfVal_dict] at hwf0
        have hsze2 : sizeOf e2 ≤ n := by simp at hsz; omega
        have hsub : rupdateGo ([] : List (String × Val)) e2 = some e2 := by
          simpa using ih e2 hsze2 hwf0.1 hwf0.2 [] (by simp)
        have hgd : getD acc k0 (Val.vdict []) = Val.vdict [] := by
          simp [getD, lookup_eq_none_of_not_mem hk0acc]
        have hrup : rupdate (Val.vdict []) (Val.vdict e2) = some (Val.vdict e2) := by
          simp [rupdate, hsub]
        simp only [rupdateGo, hgd, hrup]
        rw [hsetk, hrec]
        simp
      | vnull =>
        simp only [rupdateGo]
        rw [hsetk, hrec]
        simp
      | vint m =>
        simp only [rupdateGo]
        rw [hsetk, hrec]
        simp
      | vstr s =>
        simp only [rupdateGo]
        rw [hsetk, hrec]
        simp
      | vlist xs =>
        simp only [rupdateGo]
        rw [hsetk, hrec]
        simp

/-- `merge({}, B) = B` for a well-formed dict `B`. -/
theorem rupdate_empty {es : List (String × Val)} (h : wfVal (Val.vdict es)) :
    rupdate (Val.vdict []) (Val.vdict es) = some (Val.vdict es) := by
  rw [wfVal_dict] at h
  have := rupdateGo_append_aux (sizeOf es) es le_rfl h.1 h.2 [] (by simp)
  simp [rupdate, this]

/-! ## What the update loop does to each key -/

/-- Scalars (`None`, ints, strs) have no `.copy` method, so `rupdate`
raises an `AttributeError` when handed one as its first argument. -/
def Val.isScalar : Val → Bool
  | .vnull => true
  | .vint _ => true
  | .vstr _ => true
  | _ => false

theorem rupdateGo_cons_of_not_dict {v0 : Val} (h : v0.isDict = false)
    (acc rest : List (String × Val)) (k0 : String) :
    rupdateGo acc ((k0, v0) :: rest) = rupdateGo (setk acc k0 v0) rest := by
  cases v0 <;> simp_all [rupdateGo, Val.isDict]

theorem rupdateGo_cons_dict (acc rest e2 : List (String × Val)) (k0 : String) :
    rupdateGo acc ((k0, Val.vdict e2) :: rest) =
      match rupdate (getD acc k0 (Val.vdict [])) (Val.vdict e2) with
      | some sub => rupdateGo (setk acc k0 sub) rest
      | none => none := by
  simp [rupdateGo]

theorem rupdate_scalar {s : Val} (h : s.isScalar = true) (d2 : Val) :
    rupdate s d2 = none := by
  cases s <;> simp_all [rupdate, Val.isScalar] <;> cases d2 <;> simp [rupdate]

/-- Master lemma: the effect of the `for key,val in dict2.items()` loop on
the value found at each key, assuming `dict2` has duplicate-free keys. -/
theorem rupdateGo_lookup : ∀ (es2 acc m : List (String × Val)),
    (keys es2).Nodup → rupdateGo acc es2 = some m → ∀ k : String,
    (k ∉ keys es2 → lookup m k = lookup acc k) ∧
    (∀ v2, lookup es2 k = some v2 →
      (v2.isDict = false → lookup m k = some v2) ∧
      (∀ e2, v2 = Val.vdict e2 →
        ∃ w, rupdate (getD acc k (Val.vdict [])) (Val.vdict e2) = some w ∧
             lookup m k = some w)) := by
  intro es2
  induction es2 with
  | nil =>
    intro acc m _ h k
    simp only [rupdateGo] at h
    obtain rfl : acc = m := Option.some.injEq .. ▸ h
    exact ⟨fun _ => rfl, fun v2 hv2 => by simp [lookup] at hv2⟩
  | cons kv rest ih =>
    intro acc m hnd h k
    obtain ⟨k0, v0⟩ := kv
    have hndc := List.nodup_cons.mp (by simpa using hnd)
    by_cases hd : v0.isDict
    · obtain ⟨e2, rfl⟩ : ∃ e2, v0 = Val.vdict e2 := by
        cases v0 <;> simp_all [Val.isDict]
      rw [rupdateGo_cons_dict] at h
      cases hsub : rupdate (getD acc k0 (Val.vdict [])) (Val.vdict e2) with
      | none => rw [hsub] at h; simp at h
      | some sub =>
        rw [hsub] at h
        simp only at h
        have IH := ih (setk acc k0 sub) m hndc.2 h
        constructor
        · intro hk
          rw [keys_cons, List.mem_cons] at hk
          push_neg at hk
          rw [(IH k).1 hk.2, lookup_setk_ne _ _ hk.1]
        · intro v2 hv2
          by_cases hkk : k0 = k
          · subst hkk
            rw [lookup, if_pos rfl] at hv2
            obtain rfl : Val.vdict e2 = v2 := Option.some.injEq .. ▸ hv2
            constructor
            · intro hfalse; simp [Val.isDict] at hfalse
            · intro e2' he2'
              obtain rfl : e2 = e2' := by
                simpa using congrArg id he2'
              refine ⟨sub, hsub, ?_⟩
              rw [(IH k0).1 hndc.1, lookup_setk_self]
          · rw [lookup, if_neg hkk] at hv2
            have H := (IH k).2 v2 hv2
            refine ⟨H.1, fun e2' he2' => ?_⟩
            obtain ⟨w, hw1, hw2⟩ := H.2 e2' he2'
            refine ⟨w, ?_, hw2⟩
            rwa [getD, lookup_setk_ne _ _ (Ne.symm hkk)] at hw1
    · have hd' : v0.isDict = false := by simpa using hd
      rw [rupdateGo_cons_of_not_dict hd'] at h
      have IH := ih (setk acc k0 v0) m hndc.2 h
      constructor
      · intro hk
        rw [keys_cons, List.mem_cons] at hk
        push_neg at hk
        rw [(IH k).1 hk.2, lookup_setk_ne _ _ hk.1]
      · intro v2 hv2
        by_cases hkk : k0 = k
        · subst hkk
          rw [lookup, if_pos rfl] at hv2
          obtain rfl : v0 = v2 := Option.some.injEq .. ▸ hv2
          constructor
          · intro _
            rw [(IH k0).1 hndc.1, lookup_setk_self]
          · intro e2' he2'
            rw [he2'] at hd'
            simp [Val.isDict] at hd'
        · rw [lookup, if_neg hkk] at hv2
          have H := (IH k).2 v2 hv2
          refine ⟨H.1, fun e2' he2' => ?_⟩
          obtain ⟨w, hw1, hw2⟩ := H.2 e2' he2'
          refine ⟨w, ?_, hw2⟩
          rwa [getD, lookup_setk_ne _ _ (Ne.symm hkk)] at hw1

theorem not_mem_of_lookup_none : ∀ {es : List (String × Val)} {k : String},
    lookup es k = none → k ∉ keys es := by
  intro es
  induction es with
  | nil => intro k _; simp
  | cons kv rest ih =>
    intro k h
    obtain ⟨k0, v0⟩ := kv
    by_cases hk : k0 = k
    · rw [lookup, if_pos hk] at h
      exact Option.noConfusion h
    · rw [lookup, if_neg hk] at h
      rw [keys_cons, List.mem_cons]
      push_neg
      exact ⟨Ne.symm hk, ih h⟩

theorem mem_of_lookup : ∀ {es : List (String × Val)} {k : String} {v : Val},
    lookup es k = some v → (k, v) ∈ es := by
  intro es
  induction es with
  | nil => intro k v h; simp [lookup] at h
  | cons kv rest ih =>
    intro k v h
    obtain ⟨k0, v0⟩ := kv
    by_cases hk : k0 = k
    · subst hk
      rw [lookup, if_pos rfl] at h
      obtain rfl : v0 = v := Option.some.injEq .. ▸ h
      exact List.mem_cons_self _ _
    · rw [lookup, if_neg hk] at h
      exact List.mem_cons_of_mem _ (ih h)

/-- If some key of the override holds a mapping while the accumulator holds
a scalar there, the loop raises (`(scalar).copy()` is an `AttributeError`):
the whole update returns `none`. -/
theorem rupdateGo_fail : ∀ (es2 acc : List (String × Val)), (keys es2).Nodup →
    ∀ (k : String) (s : Val) (e2 : List (String × Val)),
    lookup acc k = some s → s.isScalar = true → (k, Val.vdict e2) ∈ es2 →
    rupdateGo acc es2 = none := by
  intro es2
  induction es2 with
  | nil => intro acc _ k s e2 _ _ hmem; simp at hmem
  | cons kv rest ih =>
    intro acc hnd k s e2 hacc hs hmem
    obtain ⟨k0, v0⟩ := kv
    have hndc := List.nodup_cons.mp (by simpa using hnd)
    rcases List.mem_cons.mp hmem with hmem1 | hmem2
    · rw [Prod.mk.injEq] at hmem1
      obtain ⟨rfl, rfl⟩ := hmem1
      rw [rupdateGo_cons_dict]
      have : getD acc k (Val.vdict []) = s := by simp [getD, hacc]
      rw [this, rupdate_scalar hs]
    · have hk0 : k0 ≠ k := by
        rintro rfl
        exact hndc.1 (mem_keys_of_mem hmem2)
      by_cases hd : v0.isDict
      · obtain ⟨e0, rfl⟩ : ∃ e0, v0 = Val.vdict e0 := by
          cases v0 <;> simp_all [Val.isDict]
        rw [rupdateGo_cons_dict]
        cases hsub : rupdate (getD acc k0 (Val.vdict [])) (Val.vdict e0) with
        | none => rfl
        | some sub =>
          simp only
          exact ih (setk acc k0 sub) hndc.2 k s e2
            (by rw [lookup_setk_ne _ _ (Ne.symm hk0)]; exact hacc) hs hmem2
      · rw [rupdateGo_cons_of_not_dict (by simpa using hd)]
        exact ih (setk acc k0 v0) hndc.2 k s e2
          (by rw [lookup_setk_ne _ _ (Ne.symm hk0)]; exact hacc) hs hmem2

/-- Unpack a successful top-level merge of two dicts into the loop. -/
theorem rupdate_dict_eq {A B m : List (String × Val)}
    (h : rupdate (Val.vdict A) (Val.vdict B) = some (Val.vdict m)) :
    rupdateGo A B = some m := by
  rw [rupdate] at h
  cases hgo : rupdateGo A B with
  | none => rw [hgo] at h; simp at h
  | some m' =>
    rw [hgo] at h
    simp only [Option.map_some', Option.some.injEq] at h
    obtain rfl : m' = m := by simpa using congrArg id h
    rfl

/-! ## Claims C1 and C2: the per-key contract of the recursive merge -/

/-- **C1, counterexample.**  The claim says that for a key present in both
mappings, when not both values are mappings the merged value equals the
override's value "regardless of the type of A[k]".  Take `A = {a: [1]}`
and `B = {a: {}}`: the values are not both mappings, yet the merge returns
`{a: [1]}` — the key `a` holds `A`'s list, not `B`'s value `{}` (the
recursion hits `[1].copy()` on the list, and the empty override dict makes
the inner loop a no-op, so the base list survives). -/
theorem c1_counterexample :
    rupdate (Val.vdict [("a", Val.vlist [Val.vint 1])]) (Val.vdict [("a", Val.vdict [])]) =
      some (Val.vdict [("a", Val.vlist [Val.vint 1])]) ∧
    Val.vlist [Val.vint 1] ≠ Val.vdict ([] : List (String × Val)) := by
  refine ⟨?_, by simp⟩
  simp [rupdate, rupdateGo, getD, lookup, setk]

/-- **C1 (amended).**  For mappings `A` (base) and `B` (override), with `B`
well-formed, whenever `rupdate(A, B)` succeeds with result `m`:
every key of `A` not in `B` keeps its value; every key of `B` not in `A`
gets `B`'s value; for a key in both where both values are mappings, the
value is the recursive merge of the two sub-mappings; and for a key of `B`
whose override value is NOT a mapping, the override value wins regardless
of `A`'s value.  (The original claim's remaining corner — override value a
mapping, base value present but not a mapping — does not yield `B[k]`:
the merge raises instead, or keeps the base list, see
`c1_counterexample` and C2.) -/
theorem c1_rupdate_spec (A B m : List (String × Val))
    (hB : wfVal (Val.vdict B))
    (h : rupdate (Val.vdict A) (Val.vdict B) = some (Val.vdict m)) :
    (∀ k, k ∉ keys B → lookup m k = lookup A k) ∧
    (∀ k v2, k ∉ keys A → lookup B k = some v2 → lookup m k = some v2) ∧
    (∀ k eA eB, lookup A k = some (Val.vdict eA) → lookup B k = some (Val.vdict eB) →
      ∃ w, rupdate (Val.vdict eA) (Val.vdict eB) = some w ∧ lookup m k = some w) ∧
    (∀ k v2, lookup B k = some v2 → v2.isDict = false → lookup m k = some v2) := by
  have hgo := rupdate_dict_eq h
  rw [wfVal_dict] at hB
  have master := rupdateGo_lookup B A m hB.1 hgo
  refine ⟨fun k hk => (master k).1 hk, ?_, ?_, ?_⟩
  · intro k v2 hkA hv2
    by_cases hd : v2.isDict
    · obtain ⟨e2, rfl⟩ : ∃ e2, v2 = Val.vdict e2 := by
        cases v2 <;> simp_all [Val.isDict]
      obtain ⟨w, hw1, hw2⟩ := ((master k).2 _ hv2).2 e2 rfl
      have hgd : getD A k (Val.vdict []) = Val.vdict [] := by
        simp [getD, lookup_eq_none_of_not_mem hkA]
      rw [hgd] at hw1
      have hwfe2 : wfVal (Val.vdict e2) := hB.2 k _ (mem_of_lookup hv2)
      rw [rupdate_empty hwfe2] at hw1
      obtain rfl : Val.vdict e2 = w := Option.some.injEq .. ▸ hw1
      exact hw2
    · exact ((master k).2 v2 hv2).1 (by simpa using hd)
  · intro k eA eB hA hBk
    obtain ⟨w, hw1, hw2⟩ := ((master k).2 _ hBk).2 eB rfl
    have hgd : getD A k (Val.vdict []) = Val.vdict eA := by simp [getD, hA]
    rw [hgd] at hw1
    exact ⟨w, hw1, hw2⟩
  · exact fun k v2 hv2 hd => ((master k).2 v2 hv2).1 hd

/-- Witness for `c1_rupdate_spec` at
`A = {a: 1, c: {z: 5}}`, `B = {b: 2, c: {z: 7}}`
(merge result `{a: 1, c: {z: 7}, b: 2}`). -/
theorem c1_witness :
    lookup [("a", Val.vint 1), ("c", Val.vdict [("z", Val.vint 7)]), ("b", Val.vint 2)] "a" =
      some (Val.vint 1) ∧
    lookup [("a", Val.vint 1), ("c", Val.vdict [("z", Val.vint 7)]), ("b", Val.vint 2)] "b" =
      some (Val.vint 2) := by
  have hB : wfVal (Val.vdict [("b", Val.vint 2), ("c", Val.vdict [("z", Val.vint 7)])]) := by
    apply wfVal_dict_of
    · decide
    · intro p hp
      fin_cases hp
      · simp [wfVal]
      · apply wfVal_dict_of
        · decide
        · intro p hp
          fin_cases hp
          simp [wfVal]
  have h : rupdate (Val.vdict [("a", Val.vint 1), ("c", Val.vdict [("z", Val.vint 5)])])
      (Val.vdict [("b", Val.vint 2), ("c", Val.vdict [("z", Val.vint 7)])]) =
      some (Val.vdict [("a", Val.vint 1), ("c", Val.vdict [("z", Val.vint 7)]),
        ("b", Val.vint 2)]) := by
    simp [rupdate, rupdateGo, getD, lookup, setk]
  have spec := c1_rupdate_spec _ _ _ hB h
  constructor
  · rw [spec.1 "a" (by simp)]
    simp [lookup]
  · exact spec.2.1 "b" (Val.vint 2) (by simp) (by simp [lookup])

/-- **C2, counterexample.**  The claim says that when `B[k]` is a mapping
but `A[k]` is a non-mapping value the merge *succeeds* and treats the base
value as absent.  Take `A = {a: 1}`, `B = {a: {x: 2}}`: the recursion calls
`rupdate(1, {x: 2})`, and `(1).copy()` raises `AttributeError` — the merge
fails instead of succeeding. -/
theorem c2_counterexample :
    rupdate (Val.vdict [("a", Val.vint 1)])
      (Val.vdict [("a", Val.vdict [("x", Val.vint 2)])]) = none := by
  simp [rupdate, rupdateGo, getD, lookup, setk]

/-- **C2 (amended).**  The `dict.get(key, {})` default applies only when the
key is *absent* from the base: then the override's mapping is merged into an
empty mapping and wins entirely.  When the base holds a scalar (`None`, int
or str — no `.copy` method) at a key whose override value is a mapping, the
merge raises (`none`) instead. -/
theorem c2_rupdate_spec (A B : List (String × Val)) (hB : wfVal (Val.vdict B))
    (k : String) (e2 : List (String × Val))
    (hBk : lookup B k = some (Val.vdict e2)) :
    (lookup A k = none →
      ∀ m, rupdate (Val.vdict A) (Val.vdict B) = some (Val.vdict m) →
        lookup m k = some (Val.vdict e2)) ∧
    (∀ s, lookup A k = some s → s.isScalar = true →
      rupdate (Val.vdict A) (Val.vdict B) = none) := by
  constructor
  · intro hA m h
    exact (c1_rupdate_spec A B m hB h).2.1 k _ (not_mem_of_lookup_none hA) hBk
  · intro s hA hs
    rw [wfVal_dict] at hB
    have hfail := rupdateGo_fail B A hB.1 k s e2 hA hs (mem_of_lookup hBk)
    rw [rupdate, hfail]
    rfl

/-- Witness for `c2_rupdate_spec` at `A = {b: 0}`, `B = {a: {x: 2}}`,
key `a` absent from the base. -/
theorem c2_witness :
    lookup [("b", Val.vint 0), ("a", Val.vdict [("x", Val.vint 2)])] "a" =
      some (Val.vdict [("x", Val.vint 2)]) := by
  have hB : wfVal (Val.vdict [("a", Val.vdict [("x", Val.vint 2)])]) := by
    apply wfVal_dict_of
    · decide
    · intro p hp
      fin_cases hp
      apply wfVal_dict_of
      · decide
      · intro p hp
        fin_cases hp
        simp [wfVal]
  exact (c2_rupdate_spec [("b", Val.vint 0)] _ hB "a" _ (by simp [lookup])).1
    (by simp [lookup]) _ (by simp [rupdate, rupdateGo, getD, lookup, setk])

/-! ## The composition pipeline: `get_configs` after parsing

`get_configs` (configs.py lines 84-104) parses each file into a list of
documents (`fdicts`), builds all combinations with `itertools.product`,
folds each combination through `rupdate` starting from `{}` (`finaldict`),
optionally prints, then optionally checks the `type` tag of every result
dict, calling `dutil.zz` (which raises `SystemExit`) on the first failure.
File reading/YAML parsing is the external collaborator, so the embedding
starts from the parsed per-file document lists. -/

/-- `finaldict(dicts)` (configs.py lines 73-79): successively update an
initially empty dict with the members of the input list of dicts.  An
exception escaping `rupdate` aborts the whole call (`none`). -/
def finaldictGo (fd : Val) : List Val → Option Val
  | [] => some fd
  | d :: rest =>
    match rupdate fd d with
    | some fd' => finaldictGo fd' rest
    | none => none

def finaldict (ds : List Val) : Option Val := finaldictGo (Val.vdict []) ds

/-- `itertools.product(*fdicts)`: all combinations picking one document per
file, in file order, iterating the **last** file's documents fastest. -/
def pyproduct : List (List Val) → List (List Val)
  | [] => [[]]
  | l :: ls => l.flatMap (fun x => (pyproduct ls).map (x :: ·))

/-- The list comprehension `[finaldict(combo) for combo in ...]`: evaluated
left to right, an exception at any element aborts the whole comprehension. -/
def mapOpt (f : List Val → Option Val) : List (List Val) → Option (List Val)
  | [] => some []
  | x :: xs =>
    match f x with
    | some y => (mapOpt f xs).map (y :: ·)
    | none => none

/-- `cdict.get('type') in types` (configs.py line 101).  `types` is a list
of strings (docstring: names to compare the `type` entry against).  A dict
without a `type` key yields Python `None`, which is `==` to no string; a
non-string value at `type` likewise matches no element of `types`. -/
def typeOk (c : Val) (types : List String) : Bool :=
  match c with
  | Val.vdict es =>
    match lookup es "type" with
    | some (Val.vstr s) => types.contains s
    | _ => false
  | _ => false

/-- An unrecoverable failure escaping `get_configs`. -/
inductive CfgError where
  /-- An exception raised inside `rupdate` (`AttributeError`/`TypeError`). -/
  | mergeError : CfgError
  /-- The `SystemExit` raised by `dutil.zz` from the `types` check
  (util.py lines 31-50, called at configs.py lines 102-103). -/
  | typeError : CfgError
deriving Repr, DecidableEq

/-- The `for cdict in cdicts` loop of the `types` check: `dutil.zz` raises
on the **first** config whose `type` is not allowed, so later configs are
never examined. -/
def checkTypes : List Val → List String → Except CfgError Unit
  | [], _ => Except.ok ()
  | c :: rest, types =>
    if typeOk c types then checkTypes rest types
    else Except.error CfgError.typeError

/-- One print statement of `get_configs`, recorded abstractly (the summary
line at `verbose>=1` with the config count and the file names, and one
line per config at `verbose>=2`). -/
inductive PrintEvent where
  | summary (nd : Nat) (files : List String) : PrintEvent
  | config (idx : Nat) (nd : Nat) (c : Val) : PrintEvent
deriving Repr

/-- `get_configs` from the point where the files are parsed (configs.py
lines 91-104): the returned value (or the escaping error), paired with the
trace of print statements. -/
def get_configsV (files : List String) (fdicts : List (List Val)) (types : List String)
    (verbose : Nat) : Except CfgError (List Val) × List PrintEvent :=
  match mapOpt finaldict (pyproduct fdicts) with
  | none => (Except.error CfgError.mergeError, [])
  | some cdicts =>
    let ev1 := if 1 ≤ verbose then [PrintEvent.summary cdicts.length files] else []
    let ev2 := if 2 ≤ verbose then
        cdicts.enum.map (fun p => PrintEvent.config (p.1 + 1) cdicts.length p.2)
      else []
    let res := if types.isEmpty then Except.ok cdicts
      else
        match checkTypes cdicts types with
        | Except.ok _ => Except.ok cdicts
        | Except.error e => Except.error e
    (res, ev1 ++ ev2)

/-- The value returned by `get_configs` (file names and verbosity only
affect the print trace; see `c10_deterministic`). -/
def get_configs (fdicts : List (List Val)) (types : List String) :
    Except CfgError (List Val) :=
  (get_configsV [] fdicts types 0).1

/-! ### Pipeline helper lemmas -/

theorem get_configsV_some {fdicts : List (List Val)} {cdicts : List Val}
    (h : mapOpt finaldict (pyproduct fdicts) = some cdicts)
    (files : List String) (types : List String) (verbose : Nat) :
    (get_configsV files fdicts types verbose).1 =
      if types.isEmpty then Except.ok cdicts
      else
        match checkTypes cdicts types with
        | Except.ok _ => Except.ok cdicts
        | Except.error e => Except.error e := by
  simp [get_configsV, h]

theorem get_configs_ok_mapOpt {fdicts : List (List Val)} {types : List String}
    {cs : List Val} (h : get_configs fdicts types = Except.ok cs) :
    mapOpt finaldict (pyproduct fdicts) = some cs := by
  rw [get_configs] at h
  cases hm : mapOpt finaldict (pyproduct fdicts) with
  | none => simp [get_configsV, hm] at h
  | some cdicts =>
    rw [get_configsV_some hm] at h
    by_cases ht : types.isEmpty
    · rw [if_pos ht] at h
      obtain rfl : cdicts = cs := by simpa using h
      rfl
    · rw [if_neg ht] at h
      cases hc : checkTypes cdicts types with
      | ok u =>
        rw [hc] at h
        obtain rfl : cdicts = cs := by simpa using h
        rfl
      | error e => rw [hc] at h; simp at h

theorem mapOpt_length {f : List Val → Option Val} :
    ∀ {xs : List (List Val)} {ys : List Val}, mapOpt f xs = some ys →
      ys.length = xs.length := by
  intro xs
  induction xs with
  | nil =>
    intro ys h
    obtain rfl : ([] : List Val) = ys := by simpa [mapOpt] using h
    rfl
  | cons x xs ih =>
    intro ys h
    rw [mapOpt] at h
    cases hx : f x with
    | none => rw [hx] at h; simp at h
    | some y =>
      rw [hx] at h
      cases hm : mapOpt f xs with
      | none => rw [hm] at h; simp at h
      | some ys' =>
        rw [hm] at h
        simp only [Option.map_some', Option.some.injEq] at h
        subst h
        simp [ih hm]

theorem mapOpt_getElem? {f : List Val → Option Val} :
    ∀ {xs : List (List Val)} {ys : List Val}, mapOpt f xs = some ys →
      ∀ j : Nat, ys[j]? = (xs[j]?).bind f := by
  intro xs
  induction xs with
  | nil =>
    intro ys h j
    obtain rfl : ([] : List Val) = ys := by simpa [mapOpt] using h
    simp
  | cons x xs ih =>
    intro ys h j
    rw [mapOpt] at h
    cases hx : f x with
    | none => rw [hx] at h; simp at h
    | some y =>
      rw [hx] at h
      cases hm : mapOpt f xs with
      | none => rw [hm] at h; simp at h
      | some ys' =>
        rw [hm] at h
        simp only [Option.map_some', Option.some.injEq] at h
        subst h
        cases j with
        | zero => simp [hx]
        | succ j => simp [ih hm j]

theorem pyproduct_length : ∀ ls : List (List Val),
    (pyproduct ls).length = (ls.map List.length).prod := by
  intro ls
  induction ls with
  | nil => simp [pyproduct]
  | cons l ls ih =>
    simp only [pyproduct, List.length_flatMap, List.map_map]
    simp only [Function.comp_def, List.length_map, ih]
    rw [List.map_const', List.sum_replicate, smul_eq_mul, List.map_cons, List.prod_cons]

theorem pyproduct_nil_mem : ∀ {ls : List (List Val)}, ([] : List Val) ∈ ls →
    pyproduct ls = [] := by
  intro ls
  induction ls with
  | nil => intro h; simp at h
  | cons l ls ih =>
    intro h
    rcases List.mem_cons.mp h with rfl | h
    · simp [pyproduct]
    · simp [pyproduct, ih h]

/-! ### Cartesian-product iteration order

`itertools.product` iterates the last sequence fastest, so combination
number `j` (0-based) picks from file `i` the document whose index is the
`i`-th digit of `j` in the mixed-radix system whose radices are the
document counts, most significant digit first. -/

theorem flatMap_getElem? {α β : Type} (f : α → List β) (P : Nat)
    (hP : ∀ x, (f x).length = P) :
    ∀ (l : List α) (j : Nat), j < l.length * P →
      (l.flatMap f)[j]? = (l[j / P]?).bind (fun x => (f x)[j % P]?) := by
  intro l
  induction l with
  | nil => intro j hj; simp at hj
  | cons x rest ih =>
    intro j hj
    rcases Nat.eq_zero_or_pos P with rfl | hP0
    · simp at hj
    by_cases hjP : j < P
    · rw [List.flatMap_cons, List.getElem?_append_left (by rw [hP x]; exact hjP)]
      rw [Nat.div_eq_of_lt hjP, Nat.mod_eq_of_lt hjP]
      simp
    · push_neg at hjP
      rw [List.flatMap_cons, List.getElem?_append_right (by rw [hP x]; exact hjP)]
      rw [hP x]
      have hlt : j - P < rest.length * P := by
        rw [List.length_cons, Nat.succ_mul] at hj
        omega
      rw [ih (j - P) hlt]
      obtain ⟨t, rfl⟩ : ∃ t, j = t + P := ⟨j - P, by omega⟩
      rw [Nat.add_sub_cancel, Nat.add_div_right _ hP0, Nat.add_mod_right]
      simp

/-- The mixed-radix digits of `j`, most significant first, for the given
radices (the head radix only bounds `j`, it does not enter the digits). -/
def mixedRadix : List Nat → Nat → List Nat
  | [], _ => []
  | _ :: ds, j => j / ds.prod :: mixedRadix ds (j % ds.prod)

/-- Combination number `j` of the Cartesian product over `fdicts`, in
standard last-file-fastest order: pick from each file the document selected
by the corresponding mixed-radix digit of `j`. -/
def comboAt (fdicts : List (List Val)) (j : Nat) : List Val :=
  List.zipWith (fun l i => l.getD i (Val.vdict []))
    fdicts (mixedRadix (fdicts.map List.length) j)

theorem pyproduct_getElem? : ∀ (ls : List (List Val)) (j : Nat),
    j < (ls.map List.length).prod → (pyproduct ls)[j]? = some (comboAt ls j) := by
  intro ls
  induction ls with
  | nil =>
    intro j hj
    simp only [List.map_nil, List.prod_nil] at hj
    obtain rfl : j = 0 := by omega
    simp [pyproduct, comboAt, mixedRadix]
  | cons l ls ih =>
    intro j hj
    have hj' : j < l.length * (ls.map List.length).prod := by
      simpa using hj
    rcases Nat.eq_zero_or_pos (ls.map List.length).prod with hP | hP0
    · rw [hP, Nat.mul_zero] at hj'; omega
    rw [pyproduct, flatMap_getElem? _ _ (fun x => by simp [pyproduct_length]) l j hj']
    have hdiv : j / (ls.map List.length).prod < l.length :=
      (Nat.div_lt_iff_lt_mul hP0).mpr hj'
    rw [List.getElem?_eq_getElem hdiv]
    rw [Option.some_bind, List.getElem?_map,
      ih (j % (ls.map List.length).prod) (Nat.mod_lt _ hP0)]
    simp only [Option.map_some', Option.some.injEq]
    simp only [comboAt, List.map_cons, mixedRadix, List.zipWith_cons_cons,
      List.getD_eq_getElem?_getD, List.getElem?_eq_getElem hdiv, Option.getD_some]

/-! ### The `types` check -/

theorem checkTypes_ok_all : ∀ {cs : List Val} {types : List String} {u : Unit},
    checkTypes cs types = Except.ok u → ∀ c ∈ cs, typeOk c types = true := by
  intro cs
  induction cs with
  | nil => intro types u _ c hc; simp at hc
  | cons c0 rest ih =>
    intro types u h c hc
    rw [checkTypes] at h
    cases ht : typeOk c0 types with
    | false => rw [ht] at h; simp at h
    | true =>
      rw [ht, if_pos rfl] at h
      rcases List.mem_cons.mp hc with rfl | hc
      · exact ht
      · exact ih h c hc

theorem checkTypes_error_of_bad : ∀ {cs : List Val} {types : List String},
    (∃ c ∈ cs, typeOk c types = false) →
    checkTypes cs types = Except.error CfgError.typeError := by
  intro cs
  induction cs with
  | nil => intro types h; simp at h
  | cons c0 rest ih =>
    intro types h
    rw [checkTypes]
    cases ht : typeOk c0 types with
    | false => simp
    | true =>
      rw [if_pos rfl]
      obtain ⟨c, hc, hbad⟩ := h
      rcases List.mem_cons.mp hc with rfl | hc
      · rw [ht] at hbad; exact absurd hbad (by simp)
      · exact ih ⟨c, hc, hbad⟩

/-! ## Claims C3–C7 and C10: the pipeline contract -/

/-- **C3.**  A successful `get_configs` run over files with document counts
`d1, ..., dn` returns exactly `d1 * ... * dn` resolved configurations, and
if any file has zero documents the run returns the empty list — a normal
`ok` return, not an error (the `types` loop and the merge fold are vacuous
on an empty product). -/
theorem c3_config_count (fdicts : List (List Val)) (types : List String) (cs : List Val)
    (h : get_configs fdicts types = Except.ok cs) :
    cs.length = (fdicts.map List.length).prod ∧
    (([] : List Val) ∈ fdicts → get_configs fdicts types = Except.ok []) := by
  have hm := get_configs_ok_mapOpt h
  constructor
  · rw [mapOpt_length hm, pyproduct_length]
  · intro hmem
    have hp : mapOpt finaldict (pyproduct fdicts) = some [] := by
      rw [pyproduct_nil_mem hmem]; rfl
    rw [get_configs, get_configsV_some hp]
    by_cases ht : types.isEmpty
    · rw [if_pos ht]
    · rw [if_neg ht]; rfl

/-- Witness for `c3_config_count`: one file with one (empty) document
followed by a file with zero documents. -/
theorem c3_witness :
    (([] : List Val).length = ([[Val.vdict []], ([] : List Val)].map List.length).prod) ∧
    get_configs [[Val.vdict []], ([] : List Val)] [] = Except.ok [] := by
  have h : get_configs [[Val.vdict []], ([] : List Val)] [] = Except.ok [] := rfl
  have hc := c3_config_count [[Val.vdict []], ([] : List Val)] [] [] h
  exact ⟨hc.1, hc.2 (by simp)⟩

/-- **C4.**  A successful `get_configs` run lists its results in standard
Cartesian-product order over the input files with the last file's documents
varying fastest: result number `j` (0-based) is the fold `finaldict` — the
left-to-right merge, starting from the empty mapping, in file order (first
file lowest priority, last file highest) — of the combination selected by
the mixed-radix digits of `j` (`comboAt`, last digit = last file =
fastest). -/
theorem c4_order_fold (fdicts : List (List Val)) (types : List String) (cs : List Val)
    (h : get_configs fdicts types = Except.ok cs) :
    ∀ j : Nat, j < (fdicts.map List.length).prod →
      cs[j]? = finaldict (comboAt fdicts j) := by
  have hm := get_configs_ok_mapOpt h
  intro j hj
  rw [mapOpt_getElem? hm j, pyproduct_getElem? fdicts j hj, Option.some_bind]

/-- Witness for `c4_order_fold`: two files, the first with documents
`{a: 1}` and `{a: 2}`, the second with document `{b: 3}`; combination 1
picks the first file's second document (last file varies fastest). -/
theorem c4_witness :
    ([Val.vdict [("a", Val.vint 1), ("b", Val.vint 3)],
      Val.vdict [("a", Val.vint 2), ("b", Val.vint 3)]] : List Val)[1]? =
      finaldict (comboAt [[Val.vdict [("a", Val.vint 1)], Val.vdict [("a", Val.vint 2)]],
        [Val.vdict [("b", Val.vint 3)]]] 1) := by
  have h : get_configs [[Val.vdict [("a", Val.vint 1)], Val.vdict [("a", Val.vint 2)]],
      [Val.vdict [("b", Val.vint 3)]]] [] =
      Except.ok [Val.vdict [("a", Val.vint 1), ("b", Val.vint 3)],
        Val.vdict [("a", Val.vint 2), ("b", Val.vint 3)]] := by
    simp [get_configs, get_configsV, pyproduct, mapOpt, finaldict, finaldictGo,
      rupdate, rupdateGo, getD, lookup, setk]
  exact c4_order_fold _ _ _ h 1 (by decide)

/-- **C6.**  Zero input files produce exactly one resolved configuration,
the empty mapping: `itertools.product()` of no sequences is one empty
combination, and folding it leaves the initial `{}`. -/
theorem c6_zero_files :
    get_configs [] [] = Except.ok [Val.vdict []] ∧ pyproduct [] = [[]] :=
  ⟨rfl, rfl⟩

/-- **C7.**  Two files with one document each resolve to exactly one
configuration, equal to the direct merge `rupdate(doc1, doc2)`: the fold
`merge(merge({}, doc1), doc2)` collapses because merging a well-formed dict
into the empty dict is the identity (`rupdate_empty`). -/
theorem c7_two_files_one_doc (d1 d2 : List (String × Val)) (m : Val)
    (h1 : wfVal (Val.vdict d1))
    (h : rupdate (Val.vdict d1) (Val.vdict d2) = some m) :
    get_configs [[Val.vdict d1], [Val.vdict d2]] [] = Except.ok [m] := by
  have hfd : finaldict [Val.vdict d1, Val.vdict d2] = some m := by
    simp [finaldict, finaldictGo, rupdate_empty h1, h]
  have hmo : mapOpt finaldict (pyproduct [[Val.vdict d1], [Val.vdict d2]]) = some [m] := by
    simp [pyproduct, mapOpt, hfd]
  rw [get_configs, get_configsV_some hmo]
  rfl

/-- Witness for `c7_two_files_one_doc` at `doc1 = {a: 1}`, `doc2 = {b: 2}`. -/
theorem c7_witness :
    get_configs [[Val.vdict [("a", Val.vint 1)]], [Val.vdict [("b", Val.vint 2)]]] [] =
      Except.ok [Val.vdict [("a", Val.vint 1), ("b", Val.vint 2)]] := by
  apply c7_two_files_one_doc
  · apply wfVal_dict_of
    · decide
    · intro p hp
      fin_cases hp
      simp [wfVal]
  · simp [rupdate, rupdateGo, getD, lookup, setk]

/-- **C5.**  With a non-empty allowed-type list: a successful run implies
every returned configuration carries a `type` key holding a string in the
allowed list; if the merge succeeds but some configuration's `type` is not
allowed, the call instead returns the fatal `typeError` (raised by
`dutil.zz` on the first offender, so later configurations are never
examined — see `checkTypes`); and a configuration with no `type` key never
matches any allowed type. -/
theorem c5_type_validation (fdicts : List (List Val)) (types : List String) (cs : List Val)
    (hne : types ≠ []) :
    (get_configs fdicts types = Except.ok cs → ∀ c ∈ cs, typeOk c types = true) ∧
    (get_configs fdicts [] = Except.ok cs → (∃ c ∈ cs, typeOk c types = false) →
      get_configs fdicts types = Except.error CfgError.typeError) ∧
    (∀ es : List (String × Val), lookup es "type" = none →
      typeOk (Val.vdict es) types = false) := by
  have hte : types.isEmpty = false := by
    cases types with
    | nil => exact absurd rfl hne
    | cons t ts => rfl
  refine ⟨?_, ?_, ?_⟩
  · intro h
    have hm := get_configs_ok_mapOpt h
    rw [get_configs, get_configsV_some hm, hte] at h
    simp only [Bool.false_eq_true, if_false] at h
    cases hc : checkTypes cs types with
    | ok u => exact checkTypes_ok_all hc
    | error e => rw [hc] at h; simp at h
  · intro h0 hbad
    have hm := get_configs_ok_mapOpt h0
    rw [get_configs, get_configsV_some hm, hte]
    simp only [Bool.false_eq_true, if_false]
    rw [checkTypes_error_of_bad hbad]
  · intro es hl
    simp [typeOk, hl]

/-- Witness for `c5_type_validation`: a single one-document file whose
resolved configuration has `type: "other"`, checked against `["svc"]`. -/
theorem c5_witness :
    get_configs [[Val.vdict [("type", Val.vstr "other")]]] ["svc"] =
      Except.error CfgError.typeError := by
  have h0 : get_configs [[Val.vdict [("type", Val.vstr "other")]]] [] =
      Except.ok [Val.vdict [("type", Val.vstr "other")]] := by
    simp [get_configs, get_configsV, pyproduct, mapOpt, finaldict, finaldictGo,
      rupdate, rupdateGo, getD, lookup, setk]
  exact (c5_type_validation [[Val.vdict [("type", Val.vstr "other")]]] ["svc"]
      [Val.vdict [("type", Val.vstr "other")]] (by simp)).2.1 h0
    ⟨Val.vdict [("type", Val.vstr "other")], by simp, by decide⟩

/-- **C10.**  The value returned by `get_configs` is a pure function of the
parsed per-file document lists and the allowed-type list: it does not
depend on `verbose` (or on the file names), which only shape the print
trace.  In this pure embedding, equality of two runs on the same parsed
input is then immediate. -/
theorem c10_deterministic (files1 files2 : List String) (fdicts : List (List Val))
    (types : List String) (v1 v2 : Nat) :
    (get_configsV files1 fdicts types v1).1 = (get_configsV files2 fdicts types v2).1 := by
  cases hm : mapOpt finaldict (pyproduct fdicts) with
  | none => simp [get_configsV, hm]
  | some cdicts => rw [get_configsV_some hm, get_configsV_some hm]

/-! ## Claim C8: the opened path

Line 81 of configs.py computes `Path(cfile).with_suffix('.yaml')` for each
given identifier.  `PurePath.with_suffix` REPLACES an existing extension of
the final path component (it appends only when the final component has
none): the suffix of a name is its part from the last `'.'` when that dot
is at an inner position (`0 < i < len(name)-1`), else empty; `with_suffix`
strips it and appends the new suffix; an empty name is a `ValueError`.
Paths are modelled as character lists; special components (`.`, `..`,
drive letters, path normalisation) are out of scope — configuration file
identifiers are plain relative names. -/

/-- The final path component (everything after the last `'/'`). -/
def pathName (p : List Char) : List Char :=
  (p.reverse.takeWhile (fun c => c != '/')).reverse

/-- The part of the path up to and including the last `'/'`. -/
def pathParent (p : List Char) : List Char :=
  (p.reverse.dropWhile (fun c => c != '/')).reverse

theorem pathParent_append_name (p : List Char) : pathParent p ++ pathName p = p := by
  rw [pathParent, pathName, ← List.reverse_append, List.takeWhile_append_dropWhile,
    List.reverse_reverse]

/-- Length of `PurePath.suffix` of a name: the part from the last `'.'`
provided `0 < i < len(name) - 1`, else empty. -/
def pySuffixLen (nm : List Char) : Nat :=
  match nm.reverse.findIdx? (fun c => c == '.') with
  | none => 0
  | some r => if 1 ≤ r ∧ 0 < nm.length - 1 - r then r + 1 else 0

/-- `PurePath(p).with_suffix(suffix)`: strip the existing suffix of the
final component (if any) and append `suffix`; `ValueError` (modelled
`none`) on an empty name. -/
def pyWithSuffix (p suffix : List Char) : Option (List Char) :=
  if pathName p = [] then none
  else some (pathParent p ++
    (pathName p).take ((pathName p).length - pySuffixLen (pathName p)) ++ suffix)

/-- The path opened by `get_configs` for a given identifier
(`Path(cfile).with_suffix('.yaml')`, configs.py line 81). -/
def yamlPath (cfile : List Char) : Option (List Char) :=
  pyWithSuffix cfile ".yaml".data

/-- **C8, counterexample.**  The claim says the opened path is the
identifier with `'.yaml'` appended, for *every* identifier.  For
`'config.v2'` the code opens `'config.yaml'`: `with_suffix` replaces the
existing `'.v2'` extension instead of appending. -/
theorem c8_counterexample :
    yamlPath "config.v2".data = some "config.yaml".data ∧
    "config.yaml".data ≠ "config.v2".data ++ ".yaml".data := by
  constructor <;> decide

/-- **C8 (amended).**  The opened path is the identifier with the final
component's extension replaced by `'.yaml'`: when the final component has
no extension this is exactly the identifier with `'.yaml'` appended, and
when it has one (`pySuffixLen > 0`) the extension is stripped first (the
parent/name decomposition being exact). -/
theorem c8_yaml_path (p : List Char) (hn : pathName p ≠ []) :
    (pySuffixLen (pathName p) = 0 → yamlPath p = some (p ++ ".yaml".data)) ∧
    (∀ sl, pySuffixLen (pathName p) = sl → 0 < sl →
      yamlPath p = some (pathParent p ++
        (pathName p).take ((pathName p).length - sl) ++ ".yaml".data) ∧
      pathParent p ++ pathName p = p) := by
  constructor
  · intro hs
    rw [yamlPath, pyWithSuffix, if_neg hn, hs, Nat.sub_zero, List.take_length,
      pathParent_append_name]
  · intro sl hsl _
    rw [yamlPath, pyWithSuffix, if_neg hn, hsl]
    exact ⟨rfl, pathParent_append_name p⟩

/-- Witness for `c8_yaml_path` at the extension-free identifier
`'config'`, where `'.yaml'` is genuinely appended. -/
theorem c8_witness : yamlPath "config".data = some "config.yaml".data := by
  have h := (c8_yaml_path "config".data (by decide)).1 (by decide)
  rw [h]
  decide

/-! ## Claim C9: object identity — copying vs. aliasing

The claims about mutation and storage sharing are about Python object
identity, so here `rupdate`/`finaldict` are embedded a second time over an
explicit heap: every Python object lives at an address (its `id`), a dict
stores the *addresses* of its values, `dict.copy()` allocates a new dict
node sharing the value addresses, and `dict1c[key] = ...` is a store into
the (always freshly allocated) copy.  Fuel bounds the recursion (heap
dicts can be cyclic); all theorems are conditional on the run finishing,
so the fuel amount is irrelevant to them. -/

/-- A Python object id. -/
abbrev Addr := Nat

/-- A Python object on the heap: scalars, or a list/dict node holding the
addresses of its elements/values. -/
inductive HObj where
  | hnull : HObj
  | hint : Int → HObj
  | hstr : String → HObj
  | hlist : List Addr → HObj
  | hdict : List (String × Addr) → HObj
deriving Repr, DecidableEq

/-- The heap: object at address `a` is entry `a` of the list; allocation
appends. -/
abbrev Heap := List HObj

/-- Read the object at an address. -/
def hget (h : Heap) (a : Addr) : Option HObj := h[a]?

/-- Overwrite the object at an address (in-place mutation). -/
def hset (h : Heap) (a : Addr) (o : HObj) : Heap := h.set a o

/-- `d[k]` on a dict node's entry list. -/
def lookupA (es : List (String × Addr)) (k : String) : Option Addr :=
  match es with
  | [] => none
  | (k', a) :: rest => if k' = k then some a else lookupA rest k

/-- `d[k] = a` on a dict node's entry list (insertion-ordered). -/
def setkA (es : List (String × Addr)) (k : String) (a : Addr) : List (String × Addr) :=
  match es with
  | [] => [(k, a)]
  | (k', a') :: rest => if k' = k then (k', a) :: rest else (k', a') :: setkA rest k a

/-- The two recursion states of the heap-level `rupdate`:
`merge a1 a2` is a call `rupdate(dict1, dict2)` with the two argument
addresses, and `loop r es` is the `for key,val in dict2.items()` loop
writing into the copy `dict1c` allocated at address `r`. -/
inductive HCall where
  | merge : Addr → Addr → HCall
  | loop : Addr → List (String × Addr) → HCall

/-- Heap-level `rupdate` (configs.py lines 64-72), fuel-bounded:

* `merge a1 a2`: read `dict2` (must be a dict — `.items()`); then
  `dict1c = dict1.copy()` allocates a fresh node with the same entry list
  (values shared by address!), and the loop runs on it;  a list `dict1`
  copies to a fresh list node, and any loop iteration over it would raise.
* `loop r ((k, va) :: rest)`: if the override value `va` is a dict node,
  compute `dict1c.get(key,{})` (the stored address if `k` is present,
  otherwise a fresh empty dict), recursively merge, and store the result
  address at `k` in `dict1c`; a non-dict `va` is stored as-is — the object
  at `va` is aliased, not copied. -/
def hrun : Nat → Heap → HCall → Option (Heap × Addr)
  | 0, _, _ => none
  | fuel+1, h, HCall.merge a1 a2 =>
    match hget h a2 with
    | some (HObj.hdict e2) =>
      match hget h a1 with
      | some (HObj.hdict d1) => hrun fuel (h ++ [HObj.hdict d1]) (HCall.loop h.length e2)
      | some (HObj.hlist xs) =>
        match e2 with
        | [] => some (h ++ [HObj.hlist xs], h.length)
        | _ :: _ => none
      | _ => none
    | _ => none
  | fuel+1, h, HCall.loop r es =>
    match es with
    | [] => some (h, r)
    | (k, va) :: rest =>
      match hget h va with
      | some (HObj.hdict _) =>
        match hget h r with
        | some (HObj.hdict cur) =>
          match
            (match lookupA cur k with
             | some b => (h, b)
             | none => (h ++ [HObj.hdict []], h.length)) with
          | (hb, base) =>
            match hrun fuel hb (HCall.merge base va) with
            | some (h2, sub) =>
              match hget h2 r with
              | some (HObj.hdict cur2) =>
                hrun fuel (hset h2 r (HObj.hdict (setkA cur2 k sub))) (HCall.loop r rest)
              | _ => none
            | none => none
        | _ => none
      | some _ =>
        match hget h r with
        | some (HObj.hdict cur) =>
          hrun fuel (hset h r (HObj.hdict (setkA cur k va))) (HCall.loop r rest)
        | _ => none
      | none => none

/-- Heap-level `finaldict` loop: `fd = rupdate(fd, d)` over the documents. -/
def hfinaldictGo (fuel : Nat) : Heap → Addr → List Addr → Option (Heap × Addr)
  | h, fd, [] => some (h, fd)
  | h, fd, d :: rest =>
    match hrun fuel h (HCall.merge fd d) with
    | some (h2, fd2) => hfinaldictGo fuel h2 fd2 rest
    | none => none

/-- Heap-level `finaldict`: allocate `fd = {}`, then fold the documents. -/
def hfinaldict (fuel : Nat) (h : Heap) (docs : List Addr) : Option (Heap × Addr) :=
  hfinaldictGo fuel (h ++ [HObj.hdict []]) h.length docs

/-- The merge invariant (`HCall.merge`): a finished heap-level `rupdate`
never modifies a pre-existing object and returns a freshly allocated
address.  The loop invariant (`HCall.loop`): the loop only modifies the
copy it writes into (and fresh objects) and returns the copy's address. -/
theorem hrun_spec : ∀ (fuel : Nat) (h : Heap) (call : HCall) (h' : Heap) (r : Addr),
    hrun fuel h call = some (h', r) →
    h.length ≤ h'.length ∧
    (match call with
     | HCall.merge _ _ => (∀ a : Addr, a < h.length → h'[a]? = h[a]?) ∧
         h.length ≤ r ∧ r < h'.length
     | HCall.loop rr _ => (∀ a : Addr, a < h.length → a ≠ rr → h'[a]? = h[a]?) ∧ r = rr) := by
  intro fuel
  induction fuel with
  | zero =>
    intro h call h' r hE
    simp [hrun] at hE
  | succ fuel ih =>
    intro h call h' r hE
    cases call with
    | merge a1 a2 =>
      rw [hrun] at hE
      cases hg2 : hget h a2 with
      | none => rw [hg2] at hE; simp at hE
      | some o2 =>
        rw [hg2] at hE
        cases o2 with
        | hnull => simp at hE
        | hint n => simp at hE
        | hstr s => simp at hE
        | hlist xs => simp at hE
        | hdict e2 =>
          cases hg1 : hget h a1 with
          | none => rw [hg1] at hE; simp at hE
          | some o1 =>
            rw [hg1] at hE
            cases o1 with
            | hnull => simp at hE
            | hint n => simp at hE
            | hstr s => simp at hE
            | hlist xs =>
              cases e2 with
              | nil =>
                simp only at hE
                rw [Option.some.injEq, Prod.mk.injEq] at hE
                obtain ⟨rfl, rfl⟩ := hE
                refine ⟨by simp, fun a ha => List.getElem?_append_left ha, le_rfl, by simp⟩
              | cons p rest => simp at hE
            | hdict d1 =>
              simp only at hE
              have IH := ih (h ++ [HObj.hdict d1]) (HCall.loop h.length e2) h' r hE
              have hlen : (h ++ [HObj.hdict d1]).length ≤ h'.length := IH.1
              have hpres : ∀ a : Addr, a < (h ++ [HObj.hdict d1]).length → a ≠ h.length →
                  h'[a]? = (h ++ [HObj.hdict d1])[a]? := IH.2.1
              have hreq : r = h.length := IH.2.2
              have hlen' : h.length + 1 ≤ h'.length := by
                rw [List.length_append] at hlen
                simpa using hlen
              subst hreq
              refine ⟨Nat.le_of_succ_le hlen', ?_, Nat.le_refl _, hlen'⟩
              intro a ha
              have h1 : a < (h ++ [HObj.hdict d1]).length := by
                rw [List.length_append]
                exact Nat.lt_succ_of_lt ha
              have h2 : a ≠ h.length := Nat.ne_of_lt ha
              rw [hpres a h1 h2]
              exact List.getElem?_append_left ha
    | loop rr es =>
      cases es with
      | nil =>
        rw [hrun] at hE
        rw [Option.some.injEq, Prod.mk.injEq] at hE
        obtain ⟨rfl, rfl⟩ := hE
        exact ⟨le_rfl, fun a _ _ => rfl, rfl⟩
      | cons kv rest =>
        obtain ⟨k, va⟩ := kv
        rw [hrun] at hE
        cases hgv : hget h va with
        | none => rw [hgv] at hE; simp at hE
        | some ov =>
          rw [hgv] at hE
          cases hgr : hget h rr with
          | none =>
            rw [hgr] at hE
            cases ov <;> simp at hE
          | some orr =>
            rw [hgr] at hE
            cases orr with
            | hnull => cases ov <;> simp at hE
            | hint n => cases ov <;> simp at hE
            | hstr s => cases ov <;> simp at hE
            | hlist xs => cases ov <;> simp at hE
            | hdict cur =>
              cases ov with
              | hdict e2 =>
                simp only at hE
                cases hb : lookupA cur k with
                | some b =>
                  rw [hb] at hE
                  simp only at hE
                  cases hsub : hrun fuel h (HCall.merge b va) with
                  | none => rw [hsub] at hE; simp at hE
                  | some p =>
                    obtain ⟨h2, sub⟩ := p
                    rw [hsub] at hE
                    simp only at hE
                    have IHm := ih h (HCall.merge b va) h2 sub hsub
                    have IHm1 : h.length ≤ h2.length := IHm.1
                    have IHmp : ∀ a : Addr, a < h.length → h2[a]? = h[a]? := IHm.2.1
                    cases hg2r : hget h2 rr with
                    | none => rw [hg2r] at hE; simp at hE
                    | some o2r =>
                      rw [hg2r] at hE
                      cases o2r with
                      | hnull => simp at hE
                      | hint n => simp at hE
                      | hstr s => simp at hE
                      | hlist xs => simp at hE
                      | hdict cur2 =>
                        simp only at hE
                        have IHl := ih (hset h2 rr (HObj.hdict (setkA cur2 k sub)))
                          (HCall.loop rr rest) h' r hE
                        have hlen2 : (hset h2 rr (HObj.hdict (setkA cur2 k sub))).length
                            ≤ h'.length := IHl.1
                        have hpres2 : ∀ a : Addr,
                            a < (hset h2 rr (HObj.hdict (setkA cur2 k sub))).length →
                            a ≠ rr →
                            h'[a]? = (hset h2 rr (HObj.hdict (setkA cur2 k sub)))[a]? := IHl.2.1
                        have hreq2 : r = rr := IHl.2.2
                        have hlenset : (hset h2 rr (HObj.hdict (setkA cur2 k sub))).length
                            = h2.length := List.length_set ..
                        refine ⟨le_trans IHm1 (hlenset ▸ hlen2), ?_, hreq2⟩
                        intro a ha hne
                        have hb1 : a < (hset h2 rr (HObj.hdict (setkA cur2 k sub))).length := by
                          rw [hlenset]
                          exact lt_of_lt_of_le ha IHm1
                        rw [hpres2 a hb1 hne]
                        rw [hset, List.getElem?_set_ne (Ne.symm hne)]
                        exact IHmp a ha
                | none =>
                  rw [hb] at hE
                  simp only at hE
                  cases hsub : hrun fuel (h ++ [HObj.hdict []]) (HCall.merge h.length va) with
                  | none => rw [hsub] at hE; simp at hE
                  | some p =>
                    obtain ⟨h2, sub⟩ := p
                    rw [hsub] at hE
                    simp only at hE
                    have IHm := ih (h ++ [HObj.hdict []]) (HCall.merge h.length va) h2 sub hsub
                    have IHm1 : (h ++ [HObj.hdict []]).length ≤ h2.length := IHm.1
                    have IHmp : ∀ a : Addr, a < (h ++ [HObj.hdict []]).length →
                        h2[a]? = (h ++ [HObj.hdict []])[a]? := IHm.2.1
                    have hlenm : h.length + 1 ≤ h2.length := by
                      rw [List.length_append] at IHm1
                      simpa using IHm1
                    cases hg2r : hget h2 rr with
                    | none => rw [hg2r] at hE; simp at hE
                    | some o2r =>
                      rw [hg2r] at hE
                      cases o2r with
                      | hnull => simp at hE
                      | hint n => simp at hE
                      | hstr s => simp at hE
                      | hlist xs => simp at hE
                      | hdict cur2 =>
                        simp only at hE
                        have IHl := ih (hset h2 rr (HObj.hdict (setkA cur2 k sub)))
                          (HCall.loop rr rest) h' r hE
                        have hlen2 : (hset h2 rr (HObj.hdict (setkA cur2 k sub))).length
                            ≤ h'.length := IHl.1
                        have hpres2 : ∀ a : Addr,
                            a < (hset h2 rr (HObj.hdict (setkA cur2 k sub))).length →
                            a ≠ rr →
                            h'[a]? = (hset h2 rr (HObj.hdict (setkA cur2 k sub)))[a]? := IHl.2.1
                        have hreq2 : r = rr := IHl.2.2
                        have hlenset : (hset h2 rr (HObj.hdict (setkA cur2 k sub))).length
                            = h2.length := List.length_set ..
                        refine ⟨le_trans (Nat.le_of_succ_le hlenm) (hlenset ▸ hlen2), ?_, hreq2⟩
                        intro a ha hne
                        have hb1 : a < (hset h2 rr (HObj.hdict (setkA cur2 k sub))).length := by
                          rw [hlenset]
                          exact lt_of_lt_of_le ha (Nat.le_of_succ_le hlenm)
                        rw [hpres2 a hb1 hne]
                        rw [hset, List.getElem?_set_ne (Ne.symm hne)]
                        have hb2 : a < (h ++ [HObj.hdict []]).length := by
                          rw [List.length_append]
                          exact Nat.lt_succ_of_lt ha
                        rw [IHmp a hb2]
                        exact List.getElem?_append_left ha
              | hnull =>
                simp only at hE
                have IHl := ih (hset h rr (HObj.hdict (setkA cur k va)))
                  (HCall.loop rr rest) h' r hE
                have hlen2 : (hset h rr (HObj.hdict (setkA cur k va))).length
                    ≤ h'.length := IHl.1
                have hpres2 : ∀ a : Addr,
                    a < (hset h rr (HObj.hdict (setkA cur k va))).length → a ≠ rr →
                    h'[a]? = (hset h rr (HObj.hdict (setkA cur k va)))[a]? := IHl.2.1
                have hreq2 : r = rr := IHl.2.2
                have hlenset : (hset h rr (HObj.hdict (setkA cur k va))).length
                    = h.length := List.length_set ..
                refine ⟨hlenset ▸ hlen2, ?_, hreq2⟩
                intro a ha hne
                have hb1 : a < (hset h rr (HObj.hdict (setkA cur k va))).length := by
                  rw [hlenset]
                  exact ha
                rw [hpres2 a hb1 hne]
                rw [hset, List.getElem?_set_ne (Ne.symm hne)]
              | hint n =>
                simp only at hE
                have IHl := ih (hset h rr (HObj.hdict (setkA cur k va)))
                  (HCall.loop rr rest) h' r hE
                have hlen2 : (hset h rr (HObj.hdict (setkA cur k va))).length
                    ≤ h'.length := IHl.1
                have hpres2 : ∀ a : Addr,
                    a < (hset h rr (HObj.hdict (setkA cur k va))).length → a ≠ rr →
                    h'[a]? = (hset h rr (HObj.hdict (setkA cur k va)))[a]? := IHl.2.1
                have hreq2 : r = rr := IHl.2.2
                have hlenset : (hset h rr (HObj.hdict (setkA cur k va))).length
                    = h.length := List.length_set ..
                refine ⟨hlenset ▸ hlen2, ?_, hreq2⟩
                intro a ha hne
                have hb1 : a < (hset h rr (HObj.hdict (setkA cur k va))).length := by
                  rw [hlenset]
                  exact ha
                rw [hpres2 a hb1 hne]
                rw [hset, List.getElem?_set_ne (Ne.symm hne)]
              | hstr s =>
                simp only at hE
                have IHl := ih (hset h rr (HObj.hdict (setkA cur k va)))
                  (HCall.loop rr rest) h' r hE
                have hlen2 : (hset h rr (HObj.hdict (setkA cur k va))).length
                    ≤ h'.length := IHl.1
                have hpres2 : ∀ a : Addr,
                    a < (hset h rr (HObj.hdict (setkA cur k va))).length → a ≠ rr →
                    h'[a]? = (hset h rr (HObj.hdict (setkA cur k va)))[a]? := IHl.2.1
                have hreq2 : r = rr := IHl.2.2
                have hlenset : (hset h rr (HObj.hdict (setkA cur k va))).length
                    = h.length := List.length_set ..
                refine ⟨hlenset ▸ hlen2, ?_, hreq2⟩
                intro a ha hne
                have hb1 : a < (hset h rr (HObj.hdict (setkA cur k va))).length := by
                  rw [hlenset]
                  exact ha
                rw [hpres2 a hb1 hne]
                rw [hset, List.getElem?_set_ne (Ne.symm hne)]
              | hlist xs =>
                simp only at hE
                have IHl := ih (hset h rr (HObj.hdict (setkA cur k va)))
                  (HCall.loop rr rest) h' r hE
                have hlen2 : (hset h rr (HObj.hdict (setkA cur k va))).length
                    ≤ h'.length := IHl.1
                have hpres2 : ∀ a : Addr,
                    a < (hset h rr (HObj.hdict (setkA cur k va))).length → a ≠ rr →
                    h'[a]? = (hset h rr (HObj.hdict (setkA cur k va)))[a]? := IHl.2.1
                have hreq2 : r = rr := IHl.2.2
                have hlenset : (hset h rr (HObj.hdict (setkA cur k va))).length
                    = h.length := List.length_set ..
                refine ⟨hlenset ▸ hlen2, ?_, hreq2⟩
                intro a ha hne
                have hb1 : a < (hset h rr (HObj.hdict (setkA cur k va))).length := by
                  rw [hlenset]
                  exact ha
                rw [hpres2 a hb1 hne]
                rw [hset, List.getElem?_set_ne (Ne.symm hne)]

/-- **C9, counterexample.**  Resolve the single source document
`{b: [{x: 1}]}` (document object at address 3, its list at address 2, the
inner mapping at address 1).  The resolved configuration is the dict
allocated at address 5 — and it stores, at key `b`, the *same address 2*
that the source document stores: the list object is shared between the
configuration and the document, and through it the nested mapping at
address 1 is reachable from both.  So the resolved configuration does
share storage (including nested-mapping storage) with the source document,
and mutating the configuration's list value mutates the source — the merge
copies only mapping nodes it recurses through, and aliases every non-dict
value wholesale. -/
theorem c9_counterexample :
    hfinaldict 10
      [HObj.hint 1, HObj.hdict [("x", 0)], HObj.hlist [1], HObj.hdict [("b", 2)]] [3] =
      some ([HObj.hint 1, HObj.hdict [("x", 0)], HObj.hlist [1], HObj.hdict [("b", 2)],
        HObj.hdict [], HObj.hdict [("b", 2)]], 5) ∧
    hget [HObj.hint 1, HObj.hdict [("x", 0)], HObj.hlist [1], HObj.hdict [("b", 2)],
        HObj.hdict [], HObj.hdict [("b", 2)]] 5 = some (HObj.hdict [("b", 2)]) ∧
    hget [HObj.hint 1, HObj.hdict [("x", 0)], HObj.hlist [1], HObj.hdict [("b", 2)],
        HObj.hdict [], HObj.hdict [("b", 2)]] 3 = some (HObj.hdict [("b", 2)]) ∧
    hget [HObj.hint 1, HObj.hdict [("x", 0)], HObj.hlist [1], HObj.hdict [("b", 2)],
        HObj.hdict [], HObj.hdict [("b", 2)]] 2 = some (HObj.hlist [1]) ∧
    hget [HObj.hint 1, HObj.hdict [("x", 0)], HObj.hlist [1], HObj.hdict [("b", 2)],
        HObj.hdict [], HObj.hdict [("b", 2)]] 1 = some (HObj.hdict [("x", 0)]) :=
  ⟨rfl, rfl, rfl, rfl, rfl⟩

/-- **C9 (amended).**  A finished heap-level merge returns a freshly
allocated mapping (`h.length ≤ r`) and modifies no pre-existing object —
neither input is mutated.  But the result may *share* storage with the
inputs: non-mapping values (lists in particular, together with any
mappings nested inside them) are stored by reference, so mutating such a
value inside a resolved configuration can affect the source documents (see
`c9_counterexample`). -/
theorem c9_merge_copies (fuel : Nat) (h : Heap) (a1 a2 : Addr) (h' : Heap) (r : Addr)
    (hr : hrun fuel h (HCall.merge a1 a2) = some (h', r)) :
    (∀ a : Addr, a < h.length → h'[a]? = h[a]?) ∧
    h.length ≤ r ∧ r < h'.length := by
  have H := hrun_spec fuel h (HCall.merge a1 a2) h' r hr
  have Hp : (∀ a : Addr, a < h.length → h'[a]? = h[a]?) ∧
      h.length ≤ r ∧ r < h'.length := H.2
  exact Hp

/-- Witness for `c9_merge_copies`: merging `{b: 0}` (address 2) over
`{a: 0}` (address 1) allocates the result at the fresh address 3 and
leaves the three pre-existing objects untouched. -/
theorem c9_witness :
    ([HObj.hint 1, HObj.hdict [("a", 0)], HObj.hdict [("b", 0)],
        HObj.hdict [("a", 0), ("b", 0)]] : Heap)[1]? =
      ([HObj.hint 1, HObj.hdict [("a", 0)], HObj.hdict [("b", 0)]] : Heap)[1]? ∧
    ([HObj.hint 1, HObj.hdict [("a", 0)], HObj.hdict [("b", 0)]] : Heap).length ≤ 3 ∧
    3 < ([HObj.hint 1, HObj.hdict [("a", 0)], HObj.hdict [("b", 0)],
        HObj.hdict [("a", 0), ("b", 0)]] : Heap).length := by
  have hr : hrun 5 [HObj.hint 1, HObj.hdict [("a", 0)], HObj.hdict [("b", 0)]]
      (HCall.merge 1 2) =
      some ([HObj.hint 1, HObj.hdict [("a", 0)], HObj.hdict [("b", 0)],
        HObj.hdict [("a", 0), ("b", 0)]], 3) := rfl
  have H := c9_merge_copies 5 [HObj.hint 1, HObj.hdict [("a", 0)], HObj.hdict [("b", 0)]]
    1 2 [HObj.hint 1, HObj.hdict [("a", 0)], HObj.hdict [("b", 0)],
      HObj.hdict [("a", 0), ("b", 0)]] 3 hr
  exact ⟨H.1 1 (by decide), H.2.1, H.2.2⟩

end DCF
